import Mathlib

/-!
# Verification of the bpftrace AST layer (`src/ast/ast.h`)

Shallow embedding of the AST node model of the bpftrace compiler front end:
node taxonomy, recursive destruction (ownership), shallow `leafcopy` cloning,
visitor traversal order, and the `AttachPoint`/`Probe` index bookkeeping.

Nodes live in a heap mapping addresses to node records.  A C++ pointer field
`T *p` becomes `Option Addr` (`none` = `nullptr`); a `std::vector<T*> *l`
becomes `Option (List Addr)`.  Destruction is modelled as a function that
returns the ordered trace of node addresses freed (`none` = undefined
behaviour, e.g. dereferencing a null list pointer); double frees show up as
duplicates in the trace.
-/

namespace BpftraceAst

/-- Heap address of a node (a C++ pointer value; `Option Addr` models
nullable pointers). -/
abbrev Addr := Nat

/-- The `Expression` base-class data (`src/ast/ast.h` lines 43-58): the
resolved semantic type (modelled opaquely), the three non-owning pointers
`key_for_map`, `map`, `var`, and the three classification flags.  The
in-class initializers of the source give the default values. -/
structure ExprMeta where
  type_ : Nat := 0
  key_for_map : Option Addr := none
  map : Option Addr := none
  var : Option Addr := none
  is_literal : Bool := false
  is_variable : Bool := false
  is_map : Bool := false
  deriving DecidableEq, Repr

/-- Scalar fields of `AttachPoint` (`src/ast/ast.h` lines 573-607).
`usdt` is an external `usdt_probe_entry` record, modelled opaquely.
`index_` is the private `std::map<std::string, int>`, modelled as an
association list (first binding for a key wins). -/
structure APFields where
  raw_input : String := ""
  provider : String := ""
  target : String := ""
  ns : String := ""
  func : String := ""
  usdt : Nat := 0
  freq : Int := 0
  len : Nat := 0
  mode : String := ""
  need_expansion : Bool := false
  address : Nat := 0
  func_offset : Nat := 0
  index_ : List (String × Int) := []
  deriving DecidableEq, Repr

/-- The per-kind payload of a node: one constructor per concrete node class
of `src/ast/ast.h`, with its scalar fields and owned-child pointer slots. -/
inductive NodeVal where
  | integer (n : Int)
  | positionalParameter (ptype : Nat) (n : Int) (is_in_str : Bool)
  | string (str : String)
  | stackMode (mode : String)
  | identifier (ident : String)
  | builtin (ident : String) (probe_id : Int)
  | call (func : String) (vargs : Option (List Addr))
  | map (ident : String) (vargs : Option (List Addr)) (skip_key_validation : Bool)
  | variable (ident : String)
  | binop (left : Option Addr) (op : Int) (right : Option Addr)
  | unop (op : Int) (expr : Option Addr) (is_post_op : Bool)
  | fieldAccess (expr : Option Addr) (field : String) (index : Int)
  | arrayAccess (expr : Option Addr) (indexpr : Option Addr)
  | cast (cast_type : String) (is_pointer : Bool) (is_double_pointer : Bool)
      (expr : Option Addr)
  | tuple (elems : Option (List Addr))
  | exprStatement (expr : Option Addr)
  | assignMap (map : Option Addr) (expr : Option Addr) (compound : Bool)
  | assignVar (var : Option Addr) (expr : Option Addr) (compound : Bool)
  | ifStmt (cond : Option Addr) (stmts : Option (List Addr))
      (else_stmts : Option (List Addr))
  | unroll (var : Int) (expr : Option Addr) (stmts : Option (List Addr))
  | jump (ident : Int)
  | predicate (expr : Option Addr)
  | ternary (cond : Option Addr) (left : Option Addr) (right : Option Addr)
  | whileStmt (cond : Option Addr) (stmts : Option (List Addr))
  | attachPoint (fields : APFields)
  | probe (attach_points : Option (List Addr)) (pred : Option Addr)
      (stmts : Option (List Addr)) (need_expansion : Bool)
      (need_tp_args_structs : Bool) (index_ : Int)
  | program (c_definitions : String) (probes : Option (List Addr))
  deriving DecidableEq, Repr

/-- A heap node: the `Node` base location (modelled opaquely), the
`Expression` base data (meaningful only for expression kinds; destructors of
all kinds ignore it — "do not free any of non-owned pointers we store"),
and the per-kind payload. -/
structure HNode where
  loc : Nat := 0
  meta : ExprMeta := {}
  val : NodeVal
  deriving DecidableEq, Repr

/-- The heap: C++ pointer values mapped to the node they point at. -/
abbrev Heap := Addr → Option HNode

/-- Turns a nullable child-list pointer into the sequence of element
pointers a `if (l) for (x : *l) ...` loop touches: a null list contributes
nothing. -/
def optChildren : Option (List Addr) → List (Option Addr)
  | none => []
  | some l => l.map some

/-- The sequence of `delete` operations each destructor of `src/ast/ast.h`
performs on node pointers, in source order (`none` entries are
`delete nullptr`, a no-op).  The result is `none` when the destructor
dereferences a null list pointer — undefined behaviour: `Tuple::~Tuple`
and `While::~While` iterate `*elems` / `*stmts` without a null check.
`Unroll::~Unroll` deletes only `stmts`, never `expr`; the compound
assignment destructors skip `map`/`var`. -/
def destructorPlan : NodeVal → Option (List (Option Addr))
  | .integer _ => some []
  | .positionalParameter _ _ _ => some []
  | .string _ => some []
  | .stackMode _ => some []
  | .identifier _ => some []
  | .builtin _ _ => some []
  | .call _ vargs => some (optChildren vargs)
  | .map _ vargs _ => some (optChildren vargs)
  | .variable _ => some []
  | .binop l _ r => some [l, r]
  | .unop _ e _ => some [e]
  | .fieldAccess e _ _ => some [e]
  | .arrayAccess e i => some [e, i]
  | .cast _ _ _ e => some [e]
  | .tuple elems =>
      match elems with
      | none => none
      | some l => some (l.map some)
  | .exprStatement e => some [e]
  | .assignMap m e compound => some (if compound then [e] else [m, e])
  | .assignVar v e compound => some (if compound then [e] else [v, e])
  | .ifStmt c s es => some ([c] ++ optChildren s ++ optChildren es)
  | .unroll _ _ s => some (optChildren s)
  | .jump _ => some []
  | .predicate e => some [e]
  | .ternary c l r => some [c, l, r]
  | .whileStmt c s =>
      match s with
      | none => none
      | some l => some ([c] ++ l.map some)
  | .attachPoint _ => some []
  | .probe aps p s _ _ _ => some (optChildren aps ++ [p] ++ optChildren s)
  | .program _ ps => some (optChildren ps)

/-- Modelled from the spec: the traversal order of the visitor protocol
(§4.2).  The `accept` bodies and the `Visitor` pass implementations live in
`ast.cpp`/`visitors.h`, which are not part of the given sources; the spec
fixes the order: left-to-right for binary/call/tuple operands, condition
before branches for `If`/`While`/`Ternary`, attach points and predicate
before body for `Probe`, and null/absent children are skipped. -/
def visitPlan : NodeVal → Option (List (Option Addr))
  | .integer _ => some []
  | .positionalParameter _ _ _ => some []
  | .string _ => some []
  | .stackMode _ => some []
  | .identifier _ => some []
  | .builtin _ _ => some []
  | .call _ vargs => some (optChildren vargs)
  | .map _ vargs _ => some (optChildren vargs)
  | .variable _ => some []
  | .binop l _ r => some [l, r]
  | .unop _ e _ => some [e]
  | .fieldAccess e _ _ => some [e]
  | .arrayAccess e i => some [e, i]
  | .cast _ _ _ e => some [e]
  | .tuple elems => some (optChildren elems)
  | .exprStatement e => some [e]
  | .assignMap m e _ => some [m, e]
  | .assignVar v e _ => some [v, e]
  | .ifStmt c s es => some ([c] ++ optChildren s ++ optChildren es)
  | .unroll _ e s => some ([e] ++ optChildren s)
  | .jump _ => some []
  | .predicate e => some [e]
  | .ternary c l r => some [c, l, r]
  | .whileStmt c s => some ([c] ++ optChildren s)
  | .attachPoint _ => some []
  | .probe aps p s _ _ _ => some (optChildren aps ++ [p] ++ optChildren s)
  | .program _ ps => some (optChildren ps)

/-- Walks a list of nullable child pointers in order with the walk function
`w` for a single child; a null pointer contributes nothing (`delete
nullptr` is a no-op, visitors skip absent children). -/
def walkPtrsF (w : Addr → Option (List Addr)) :
    List (Option Addr) → Option (List Addr)
  | [] => some []
  | none :: ps => walkPtrsF w ps
  | some b :: ps =>
    match w b with
    | none => none
    | some tb =>
      match walkPtrsF w ps with
      | none => none
      | some ts => some (tb ++ ts)

/-- Generic tree walk over the heap.  `plan` gives, per node kind, the
ordered child pointers to recurse into (or `none` for undefined behaviour);
`pre` selects whether the node itself is recorded before its children
(visitor pre-order) or after them (a C++ destructor frees the object after
its destructor body has deleted the children).  The result is the ordered
trace of addresses, or `none` on undefined behaviour / missing node /
exhausted fuel. -/
def walk (plan : NodeVal → Option (List (Option Addr))) (pre : Bool)
    (h : Heap) : Nat → Addr → Option (List Addr)
  | 0, _ => none
  | fuel + 1, a =>
    match h a with
    | none => none
    | some nd =>
      match plan nd.val with
      | none => none
      | some ps =>
        match walkPtrsF (fun b => walk plan pre h fuel b) ps with
        | none => none
        | some tr => some (if pre then a :: tr else tr ++ [a])

/-- Walking the child-pointer list of a node at fuel `fuel`. -/
def walkPtrs (plan : NodeVal → Option (List (Option Addr))) (pre : Bool)
    (h : Heap) (fuel : Nat) (ps : List (Option Addr)) : Option (List Addr) :=
  walkPtrsF (fun b => walk plan pre h fuel b) ps

/-- `delete a` on a node pointer: the ordered trace of node addresses
freed, children first (per the destructor bodies), the node itself last. -/
def destroyAddr (h : Heap) (fuel : Nat) (a : Addr) : Option (List Addr) :=
  walk destructorPlan false h fuel a

/-- Accepting a visitor at a node: the ordered trace of nodes visited,
pre-order (the node before its children). -/
def visitAddr (h : Heap) (fuel : Nat) (a : Addr) : Option (List Addr) :=
  walk visitPlan true h fuel a

/-!
## Leaf-copy (`DEFINE_LEAFCOPY`)

`T *leafcopy() { return new T(*this); }` — the result is determined by each
class's copy constructor.  In `src/ast/ast.h`:
  * `Integer`, `PositionalParameter`, `String`, `StackMode`, `Identifier`,
    `Builtin`, `Variable`, `Jump`, `AttachPoint` have `= default` copy
    constructors (all scalar fields copied);
  * `ArrayAccess`, `ExprStatement`, `AssignMapStatement`,
    `AssignVarStatement`, `Predicate` have inline copy constructors that
    initialize only the base subobject, so child pointers keep their
    in-class `nullptr` initializers — but `AssignMapStatement::compound` /
    `AssignVarStatement::compound` have no in-class initializer and are left
    uninitialized (indeterminate);
  * `Ternary` declares no copy constructor at all, so the implicit
    memberwise copy duplicates the child pointers `cond`/`left`/`right`;
  * the rest declare a copy constructor whose body is in `ast.cpp`.
-/

/-- Modelled from the spec: `Expression::Expression(const Expression &)`
is declared at `ast.h:47` but defined in `ast.cpp`, which is not among the
given sources.  Per §4.5 a leaf-copy "duplicates all scalar and location
fields but deliberately leaves every owned-child slot empty", and per
§3/§4.3 the binding links are non-owning metadata that never participate in
cloning: the copy keeps the type and classification flags and leaves
`key_for_map`/`map`/`var` null. -/
def metaCopy (m : ExprMeta) : ExprMeta :=
  { type_ := m.type_
    key_for_map := none
    map := none
    var := none
    is_literal := m.is_literal
    is_variable := m.is_variable
    is_map := m.is_map }

/-- The payload of `node->leafcopy()`, per the copy-constructor semantics
listed above.  `indet` supplies the value of any member the copy
constructor leaves uninitialized (the `compound` flag of the assignment
statements).  For the kinds whose copy constructor body is in `ast.cpp`
(`Call`, `Map`, `Binop`, `Unop`, `FieldAccess`, `Cast`, `Tuple`, `If`,
`Unroll`, `While`, `Probe`, `Program`) the behaviour is modelled from the
spec (§4.5): scalar fields copied, owned-child slots empty. -/
def leafcopyVal (indet : Bool) : NodeVal → NodeVal
  | .integer n => .integer n
  | .positionalParameter p n s => .positionalParameter p n s
  | .string s => .string s
  | .stackMode m => .stackMode m
  | .identifier i => .identifier i
  | .builtin i p => .builtin i p
  | .call func _ => .call func none
  | .map i _ skip => .map i none skip
  | .variable i => .variable i
  | .binop _ op _ => .binop none op none
  | .unop op _ post => .unop op none post
  | .fieldAccess _ f i => .fieldAccess none f i
  | .arrayAccess _ _ => .arrayAccess none none
  | .cast t p dp _ => .cast t p dp none
  | .tuple _ => .tuple none
  | .exprStatement _ => .exprStatement none
  | .assignMap _ _ _ => .assignMap none none indet
  | .assignVar _ _ _ => .assignVar none none indet
  | .ifStmt _ _ _ => .ifStmt none none none
  | .unroll v _ _ => .unroll v none none
  | .jump i => .jump i
  | .predicate _ => .predicate none
  | .ternary c l r => .ternary c l r
  | .whileStmt _ _ => .whileStmt none none
  | .attachPoint f => .attachPoint f
  | .probe _ _ _ ne nt ix => .probe none none none ne nt ix
  | .program c _ => .program c none

/-- `node->leafcopy()`: a fresh node whose location is copied
(`Node(const Node &) = default`), whose `Expression` base data follows
`metaCopy`, and whose payload follows `leafcopyVal`.  The operation reads
only the node record itself — it never follows any pointer into the heap. -/
def leafcopy (indet : Bool) (nd : HNode) : HNode :=
  { loc := nd.loc, meta := metaCopy nd.meta, val := leafcopyVal indet nd.val }

/-!
## `AttachPoint::index` / `Probe::index`

The bodies live in `ast.cpp`, which is not among the given sources; only
the declarations and the private counters (`std::map<std::string, int>
index_`, `int index_ = 0`) are in `src/ast/ast.h`.  The operational
behaviour is modelled from the spec (§4.4, §7): `index(name)` is a
register-on-first-use map that lazily allocates and caches index 0 on first
use of a key — there is no "unknown key" failure mode — and `set_index`
overrides the cached value; `Probe::index()` reads the single per-probe
counter that `Probe::set_index` sets. -/

/-- Association-list lookup (the `std::map` holds at most one binding per
key; the first binding wins). -/
def alookup : List (String × Int) → String → Option Int
  | [], _ => none
  | (k, v) :: rest, n => if k = n then some v else alookup rest n

/-- Association-list update-or-insert (`index_[name] = index`). -/
def aupdate : List (String × Int) → String → Int → List (String × Int)
  | [], n, i => [(n, i)]
  | (k, v) :: rest, n, i =>
    if k = n then (k, i) :: rest else (k, v) :: aupdate rest n i

/-- Modelled from the spec: `int AttachPoint::index(std::string name)`
(declared `ast.h:600`, body in `ast.cpp`).  Returns the cached index for
`name`, lazily allocating and caching 0 on first use (§7).  The result
pairs the returned index with the possibly-updated attach point state. -/
def APFields.index (ap : APFields) (name : String) : Int × APFields :=
  match alookup ap.index_ name with
  | some i => (i, ap)
  | none => (0, { ap with index_ := aupdate ap.index_ name 0 })

/-- Modelled from the spec: `void AttachPoint::set_index(std::string name,
int index)` (declared `ast.h:601`, body in `ast.cpp`): explicit override of
the cached index for `name` (§4.4). -/
def APFields.set_index (ap : APFields) (name : String) (i : Int) : APFields :=
  { ap with index_ := aupdate ap.index_ name i }

/-- The per-probe counter state: `int index_ = 0;` (`ast.h:647`, with its
in-class initializer). -/
structure ProbeFields where
  index_ : Int := 0
  deriving DecidableEq, Repr

/-- Modelled from the spec: `int Probe::index()` (declared `ast.h:642`,
body in `ast.cpp`) reads the per-probe counter. -/
def ProbeFields.index (p : ProbeFields) : Int := p.index_

/-- Modelled from the spec: `void Probe::set_index(int index)` (declared
`ast.h:643`, body in `ast.cpp`) sets the per-probe counter. -/
def ProbeFields.set_index (_ : ProbeFields) (i : Int) : ProbeFields :=
  { index_ := i }

/-- One operation of the index-bookkeeping interface: the
`AttachPoint::index`/`set_index` and `Probe::index`/`set_index` calls
issued during one compilation, in program order. -/
inductive IdxOp where
  | apIndex (name : String)
  | apSet (name : String) (i : Int)
  | prIndex
  | prSet (i : Int)
  deriving DecidableEq, Repr

/-- Running a sequence of index operations against an attach point and a
probe, collecting the value returned by each `index` call in order. -/
def runOps : List IdxOp → APFields × ProbeFields → List Int
  | [], _ => []
  | .apIndex n :: rest, (ap, pr) =>
    let r := ap.index n
    r.1 :: runOps rest (r.2, pr)
  | .apSet n i :: rest, (ap, pr) => runOps rest (ap.set_index n i, pr)
  | .prIndex :: rest, (ap, pr) => pr.index :: runOps rest (ap, pr)
  | .prSet i :: rest, (ap, pr) => runOps rest (ap, pr.set_index i)

/-- Selects the `AttachPoint::set_index` operations for a given key. -/
def apSel (name : String) : IdxOp → Option Int
  | .apSet n i => if n = name then some i else none
  | _ => none

/-- Selects the `Probe::set_index` operations. -/
def prSel : IdxOp → Option Int
  | .prSet i => some i
  | _ => none

/-- Specification-side value of a key after a given operation history: the
value of the last explicit `set_index` for that key, or 0 — the lazily
allocated first-use value — when no `set_index` for it has occurred. -/
def specApValue (hist : List IdxOp) (name : String) : Int :=
  ((hist.filterMap (apSel name)).getLast?).getD 0

/-- Specification-side value of the probe counter after a history: the last
`Probe::set_index` argument, or the initial value 0. -/
def specPrValue (hist : List IdxOp) : Int :=
  ((hist.filterMap prSel).getLast?).getD 0

/-- Specification-side run: every `index` call returns a value determined
purely by the operation history before it (no hidden state). -/
def specRun (hist : List IdxOp) : List IdxOp → List Int
  | [] => []
  | .apIndex n :: rest => specApValue hist n :: specRun (hist ++ [.apIndex n]) rest
  | .apSet n i :: rest => specRun (hist ++ [.apSet n i]) rest
  | .prIndex :: rest => specPrValue hist :: specRun (hist ++ [.prIndex]) rest
  | .prSet i :: rest => specRun (hist ++ [.prSet i]) rest

/-- Agreement of two heaps on everything the destructors and visitors
consult: node existence and the per-kind payload (location and the
`Expression` base data are unconstrained). -/
def ValAgree (h₁ h₂ : Heap) : Prop :=
  ∀ a, (h₁ a).map HNode.val = (h₂ a).map HNode.val

/-- The invariant tying the modelled `AttachPoint`/`Probe` state to the
operation history: every key's cached-or-default value is the last
explicitly set value (or the lazily allocated 0), and the probe counter is
the last `Probe::set_index` argument (or the initial 0). -/
def IdxInv (s : APFields × ProbeFields) (hist : List IdxOp) : Prop :=
  (∀ n, (alookup s.1.index_ n).getD 0 = specApValue hist n) ∧
    s.2.index_ = specPrValue hist

/-- Walking a non-null list of child addresses in visitor pre-order (the
elements of a `StatementList`/`ExpressionList`/`AttachPointList`). -/
def visitSeq (h : Heap) (f : Nat) (l : List Addr) : Option (List Addr) :=
  walkPtrsF (fun b => visitAddr h f b) (l.map some)

/-!
## Concrete example trees

Small heaps used to instantiate the theorems on concrete inputs.
-/

/-- `@x = @x + 1` lowered form of `@x += 1`: a compound `AssignMapStatement`
at 0 whose `map` field aliases the `Map` node at 1, which is also the left
operand of the `Binop` expression at 2. -/
def hAssignCompound : Heap := fun a =>
  match a with
  | 0 => some { val := .assignMap (some 1) (some 2) true }
  | 1 => some { val := .map "x" none false }
  | 2 => some { val := .binop (some 1) 0 (some 3) }
  | 3 => some { val := .integer 1 }
  | _ + 4 => none

/-- `$x = 7`: a non-compound `AssignVarStatement` owning both its `var` and
its `expr` operand. -/
def hAssignSimple : Heap := fun a =>
  match a with
  | 0 => some { val := .assignVar (some 1) (some 2) false }
  | 1 => some { val := .variable "x" }
  | 2 => some { val := .integer 7 }
  | _ + 3 => none

/-- An `If` with one then-statement and no else branch. -/
def hIfTree : Heap := fun a =>
  match a with
  | 0 => some { val := .ifStmt (some 1) (some [2]) none }
  | 1 => some { val := .builtin "pid" 0 }
  | 2 => some { val := .exprStatement (some 3) }
  | 3 => some { val := .string "hi" }
  | _ + 4 => none

/-- A `Tuple` whose `elems` list pointer is null (as produced by
`Tuple::leafcopy` before children are reattached). -/
def hTupleNull : Heap := fun a =>
  match a with
  | 0 => some { val := .tuple none }
  | _ + 1 => none

/-- An `Unroll` statement whose `expr` operand is the `String` node at 1
and whose statement list is null. -/
def hUnrollLeak : Heap := fun a =>
  match a with
  | 0 => some { val := .unroll 0 (some 1) none }
  | 1 => some { val := .string "payload" }
  | _ + 2 => none

/-- A `Binop` tree with empty `Expression` base data everywhere. -/
def hMetaA : Heap := fun a =>
  match a with
  | 0 => some { val := .binop (some 1) 0 (some 2) }
  | 1 => some { val := .integer 1 }
  | 2 => some { val := .integer 2 }
  | _ + 3 => none

/-- The same `Binop` tree with the non-owning binding links populated
(`map`/`var`/`key_for_map` point at addresses 7-9, which hold no nodes). -/
def hMetaB : Heap := fun a =>
  match a with
  | 0 => some { meta := { key_for_map := some 7, map := some 9, var := some 8,
                          is_map := true },
                val := .binop (some 1) 0 (some 2) }
  | 1 => some { meta := { var := some 9 }, val := .integer 1 }
  | 2 => some { val := .integer 2 }
  | _ + 3 => none

/-- A `Unop` whose root's `key_for_map` points at the unrelated address 5. -/
def hKfm : Heap := fun a =>
  match a with
  | 0 => some { meta := { key_for_map := some 5 }, val := .unop 0 (some 1) false }
  | 1 => some { val := .integer 3 }
  | _ + 2 => none

/-- A full probe: one attach point, a predicate, and an `If` statement whose
condition is a `Binop`. -/
def hProg : Heap := fun a =>
  match a with
  | 0 => some { val := .probe (some [1]) (some 2) (some [4]) false false 0 }
  | 1 => some { val := .attachPoint {} }
  | 2 => some { val := .predicate (some 3) }
  | 3 => some { val := .builtin "pid" 0 }
  | 4 => some { val := .ifStmt (some 5) (some [8]) (some [9]) }
  | 5 => some { val := .binop (some 6) 1 (some 7) }
  | 6 => some { val := .integer 1 }
  | 7 => some { val := .integer 2 }
  | 8 => some { val := .exprStatement (some 10) }
  | 9 => some { val := .jump 0 }
  | 10 => some { val := .string "x" }
  | _ + 11 => none

/-!
## Traversal lemmas
-/

/-- Ownership-reachability induced by a plan: `b` is reachable from `a`
following only the child edges the plan yields.  The `Expression` base data
(`key_for_map`/`map`/`var` and the flags) induces no edge. -/
inductive ReachVia (plan : NodeVal → Option (List (Option Addr))) (h : Heap) :
    Addr → Addr → Prop
  | refl (a : Addr) : ReachVia plan h a a
  | step {a c b : Addr} {nd : HNode} {ps : List (Option Addr)} :
      h a = some nd → plan nd.val = some ps → some c ∈ ps →
      ReachVia plan h c b → ReachVia plan h a b

section WalkLemmas

variable {plan : NodeVal → Option (List (Option Addr))} {pre : Bool}
variable {h h₁ h₂ : Heap}
variable {w w₁ w₂ : Addr → Option (List Addr)}

lemma walkPtrsF_child {ps : List (Option Addr)} {tr : List Addr} {c : Addr}
    (hw : walkPtrsF w ps = some tr) (hc : some c ∈ ps) :
    ∃ tc, w c = some tc ∧ ∀ x ∈ tc, x ∈ tr := by
  induction ps generalizing tr with
  | nil => simp at hc
  | cons p ps ih =>
    cases p with
    | none =>
      simp only [walkPtrsF] at hw
      rcases List.mem_cons.mp hc with hc | hc
      · exact absurd hc (by simp)
      · exact ih hw hc
    | some b =>
      simp only [walkPtrsF] at hw
      split at hw
      · exact absurd hw (by simp)
      next tb hwb =>
        split at hw
        · exact absurd hw (by simp)
        next ts hws =>
          cases hw
          rcases List.mem_cons.mp hc with hc | hc
          · obtain rfl : c = b := by simpa using hc
            exact ⟨tb, hwb, fun x hx => List.mem_append_left _ hx⟩
          · obtain ⟨tc, hwc, hsub⟩ := ih hws hc
            exact ⟨tc, hwc, fun x hx => List.mem_append_right _ (hsub x hx)⟩

lemma walkPtrsF_mem {ps : List (Option Addr)} {tr : List Addr}
    (hw : walkPtrsF w ps = some tr) :
    ∀ b ∈ tr, ∃ c, some c ∈ ps ∧ ∃ tc, w c = some tc ∧ b ∈ tc := by
  induction ps generalizing tr with
  | nil =>
    simp only [walkPtrsF] at hw
    cases hw; simp
  | cons p ps ih =>
    cases p with
    | none =>
      simp only [walkPtrsF] at hw
      intro b hb
      obtain ⟨c, hcp, htc⟩ := ih hw b hb
      exact ⟨c, List.mem_cons_of_mem _ hcp, htc⟩
    | some b₀ =>
      simp only [walkPtrsF] at hw
      split at hw
      · exact absurd hw (by simp)
      next tb hwb =>
        split at hw
        · exact absurd hw (by simp)
        next ts hws =>
          cases hw
          intro b hb
          rcases List.mem_append.mp hb with hb | hb
          · exact ⟨b₀, List.mem_cons_self _ _, tb, hwb, hb⟩
          · obtain ⟨c, hcp, htc⟩ := ih hws b hb
            exact ⟨c, List.mem_cons_of_mem _ hcp, htc⟩

lemma walkPtrsF_congr (hww : ∀ b, w₁ b = w₂ b) :
    ∀ ps, walkPtrsF w₁ ps = walkPtrsF w₂ ps := by
  intro ps
  induction ps with
  | nil => rfl
  | cons p ps ih =>
    cases p with
    | none =>
      show walkPtrsF w₁ (none :: ps) = walkPtrsF w₂ (none :: ps)
      simp only [walkPtrsF]
      exact ih
    | some b => simp only [walkPtrsF, hww b, ih]

/-- Null child slots contribute nothing to a walk: walking a child-pointer
list equals walking its non-null entries. -/
lemma walkPtrsF_skip_none :
    ∀ ps, walkPtrsF w ps = walkPtrsF w (ps.reduceOption.map some) := by
  intro ps
  induction ps with
  | nil => rfl
  | cons p ps ih =>
    cases p with
    | none =>
      show walkPtrsF w (none :: ps) = _
      simp only [walkPtrsF, List.reduceOption_cons_of_none]
      exact ih
    | some b =>
      rw [List.reduceOption_cons_of_some, List.map_cons]
      cases hwb : w b with
      | none => simp only [walkPtrsF, hwb]
      | some tb => simp only [walkPtrsF, hwb, ih]

lemma walk_self_mem {f : Nat} {a : Addr} {tr : List Addr}
    (hw : walk plan pre h f a = some tr) : a ∈ tr := by
  cases f with
  | zero => simp [walk] at hw
  | succ f =>
    simp only [walk] at hw
    split at hw
    · exact absurd hw (by simp)
    · split at hw
      · exact absurd hw (by simp)
      · split at hw
        · exact absurd hw (by simp)
        · cases hw
          cases pre <;> simp

/-- Completeness of the trace: every address ownership-reachable from `a`
occurs in a successful walk's trace. -/
lemma walk_reach_mem {a b : Addr} (hr : ReachVia plan h a b) :
    ∀ {f : Nat} {tr : List Addr}, walk plan pre h f a = some tr → b ∈ tr := by
  induction hr with
  | refl a => exact fun hw => walk_self_mem hw
  | step ha hplan hcps _ ih =>
    intro f tr hw
    cases f with
    | zero => simp [walk] at hw
    | succ f =>
      simp only [walk, ha, hplan] at hw
      split at hw
      · exact absurd hw (by simp)
      next ts hws =>
        cases hw
        obtain ⟨tc, hwc, hsub⟩ := walkPtrsF_child hws hcps
        have hbm := hsub _ (ih hwc)
        cases pre <;> simp [hbm]

/-- Soundness of the trace: every address in a successful walk's trace is
ownership-reachable from the root — in particular, addresses held only in
the non-owning `Expression` base pointers are never in the trace. -/
lemma walk_mem_reach : ∀ {f : Nat} {a : Addr} {tr : List Addr},
    walk plan pre h f a = some tr → ∀ b ∈ tr, ReachVia plan h a b := by
  intro f
  induction f with
  | zero => intro a tr hw; simp [walk] at hw
  | succ f ih =>
    intro a tr hw b hb
    simp only [walk] at hw
    split at hw
    · exact absurd hw (by simp)
    next nd hnd =>
      split at hw
      · exact absurd hw (by simp)
      next ps hplan =>
        split at hw
        · exact absurd hw (by simp)
        next ts hws =>
          cases hw
          have hb' : b = a ∨ b ∈ ts := by
            cases pre
            · simp only [if_neg Bool.false_ne_true] at hb
              rcases List.mem_append.mp hb with h' | h'
              · exact Or.inr h'
              · exact Or.inl (by simpa using h')
            · simp only [if_pos rfl] at hb
              exact List.mem_cons.mp hb
          rcases hb' with rfl | hb'
          · exact ReachVia.refl b
          · obtain ⟨c, hcp, tc, hwc, hbtc⟩ := walkPtrsF_mem hws b hb'
            exact ReachVia.step hnd hplan hcp (ih hwc b hbtc)

/-- Frame property: a walk never reads the `Expression` base data — two
heaps agreeing on the payloads produce identical traces. -/
lemma walk_frame (hag : ValAgree h₁ h₂) :
    ∀ (f : Nat) (a : Addr), walk plan pre h₁ f a = walk plan pre h₂ f a := by
  intro f
  induction f with
  | zero => intro a; simp [walk]
  | succ f ih =>
    intro a
    have hval := hag a
    cases hx : h₁ a with
    | none =>
      cases hy : h₂ a with
      | none => simp only [walk, hx, hy]
      | some nd₂ => rw [hx, hy] at hval; simp at hval
    | some nd₁ =>
      cases hy : h₂ a with
      | none => rw [hx, hy] at hval; simp at hval
      | some nd₂ =>
        rw [hx, hy] at hval
        have hv : nd₁.val = nd₂.val := by simpa using hval
        have hptrs : ∀ ps, walkPtrsF (fun b => walk plan pre h₁ f b) ps =
            walkPtrsF (fun b => walk plan pre h₂ f b) ps :=
          walkPtrsF_congr (fun b => ih b)
        simp only [walk, hx, hy, hv, hptrs]

end WalkLemmas

section WalkEquations

variable {h : Heap} {f : Nat} {a : Addr} {nd : HNode}
variable {w : Addr → Option (List Addr)}

lemma walkPtrsF_one {b : Addr} {tb : List Addr} (hw : w b = some tb) :
    walkPtrsF w [some b] = some tb := by
  simp [walkPtrsF, hw]

lemma walkPtrsF_cons_some_inv {b : Addr} {ps : List (Option Addr)}
    {ts : List Addr} (hw : walkPtrsF w (some b :: ps) = some ts) :
    ∃ tb trest, w b = some tb ∧ walkPtrsF w ps = some trest ∧
      ts = tb ++ trest := by
  simp only [walkPtrsF] at hw
  split at hw
  · exact absurd hw (by simp)
  next tb hwb =>
    split at hw
    · exact absurd hw (by simp)
    next ts' hws =>
      cases hw
      exact ⟨tb, ts', hwb, hws, rfl⟩

lemma walkPtrsF_append {ps qs : List (Option Addr)} {ts tq : List Addr}
    (hp : walkPtrsF w ps = some ts) (hq : walkPtrsF w qs = some tq) :
    walkPtrsF w (ps ++ qs) = some (ts ++ tq) := by
  induction ps generalizing ts with
  | nil =>
    simp only [walkPtrsF] at hp
    cases hp
    simpa using hq
  | cons p ps ih =>
    cases p with
    | none =>
      simp only [walkPtrsF] at hp
      show walkPtrsF w (none :: (ps ++ qs)) = _
      simp only [walkPtrsF]
      exact ih hp
    | some b =>
      obtain ⟨tb, trest, hwb, hws, rfl⟩ := walkPtrsF_cons_some_inv hp
      show walkPtrsF w (some b :: (ps ++ qs)) = _
      simp only [walkPtrsF, hwb, ih hws]
      simp [List.append_assoc]

/-- A destructor run on a node: children per the plan, the node itself
last. -/
lemma destroy_eq {ps : List (Option Addr)} {ts : List Addr}
    (hs : h a = some nd) (hplan : destructorPlan nd.val = some ps)
    (hps : walkPtrsF (fun b => destroyAddr h f b) ps = some ts) :
    destroyAddr h (f + 1) a = some (ts ++ [a]) := by
  simp only [destroyAddr] at hps ⊢
  simp [walk, hs, hplan, hps]

lemma destroy_succ_inv {tr : List Addr} (hs : h a = some nd)
    (htr : destroyAddr h (f + 1) a = some tr) :
    ∃ ps ts, destructorPlan nd.val = some ps ∧
      walkPtrsF (fun b => destroyAddr h f b) ps = some ts ∧
      tr = ts ++ [a] := by
  simp only [destroyAddr, walk, hs] at htr
  split at htr
  · exact absurd htr (by simp)
  next ps hplan =>
    split at htr
    · exact absurd htr (by simp)
    next ts hts =>
      refine ⟨ps, ts, hplan, hts, ?_⟩
      have h2 := Option.some.inj htr
      simpa using h2.symm

/-- Undefined behaviour propagates: a node whose destructor dereferences a
null list pointer destroys to `none` at every fuel. -/
lemma destroy_none_of_plan_none (hs : h a = some nd)
    (hplan : destructorPlan nd.val = none) :
    ∀ f, destroyAddr h f a = none := by
  intro f
  cases f with
  | zero => simp [destroyAddr, walk]
  | succ f => simp [destroyAddr, walk, hs, hplan]

/-- A visitor run on a node: the node itself first, then the children per
the spec's order. -/
lemma visit_eq {ps : List (Option Addr)} {ts : List Addr}
    (hs : h a = some nd) (hplan : visitPlan nd.val = some ps)
    (hps : walkPtrsF (fun b => visitAddr h f b) ps = some ts) :
    visitAddr h (f + 1) a = some (a :: ts) := by
  simp only [visitAddr] at hps ⊢
  simp [walk, hs, hplan, hps]

end WalkEquations

/-!
## Index-bookkeeping lemmas
-/

/-- A history with no `AttachPoint::set_index` for a key leaves that key's
specification-side value at the lazily allocated 0. -/
lemma specApValue_of_no_set (n : String) :
    ∀ hist : List IdxOp, (∀ i : Int, IdxOp.apSet n i ∉ hist) →
      specApValue hist n = 0 := by
  intro hist
  induction hist with
  | nil => intro _; rfl
  | cons op rest ih =>
    intro hno
    have hrest := ih fun i hi => hno i (List.mem_cons_of_mem _ hi)
    have hsel : apSel n op = none := by
      cases op with
      | apSet m i =>
        have hmn : ¬ m = n := by
          intro hmn
          subst hmn
          exact hno i (List.mem_cons_self _ _)
        simp [apSel, hmn]
      | apIndex m => rfl
      | prIndex => rfl
      | prSet i => rfl
    unfold specApValue at hrest ⊢
    rw [List.filterMap_cons, hsel]
    exact hrest

lemma alookup_aupdate_self (l : List (String × Int)) (n : String) (i : Int) :
    alookup (aupdate l n i) n = some i := by
  induction l with
  | nil => simp [alookup, aupdate]
  | cons kv rest ih =>
    obtain ⟨k, v⟩ := kv
    by_cases hk : k = n
    · simp [alookup, aupdate, hk]
    · simp [alookup, aupdate, hk, ih]

lemma alookup_aupdate_ne (l : List (String × Int)) {n m : String} (i : Int)
    (hnm : m ≠ n) : alookup (aupdate l n i) m = alookup l m := by
  induction l with
  | nil => simp [alookup, aupdate, Ne.symm hnm]
  | cons kv rest ih =>
    obtain ⟨k, v⟩ := kv
    by_cases hk : k = n
    · subst hk
      simp [alookup, aupdate, Ne.symm hnm]
    · by_cases hm : k = m
      · subst hm
        simp [alookup, aupdate, hk]
      · simp [alookup, aupdate, hk, hm, ih]

/-- The value an `AttachPoint::index(name)` call returns, as a function of
the prior state: the cached binding, defaulted to 0. -/
lemma APFields.index_fst (ap : APFields) (n : String) :
    (ap.index n).1 = (alookup ap.index_ n).getD 0 := by
  unfold APFields.index
  cases hl : alookup ap.index_ n <;> simp

lemma APFields.index_snd_lookup (ap : APFields) (n m : String) :
    (alookup (ap.index n).2.index_ m).getD 0 = (alookup ap.index_ m).getD 0 := by
  unfold APFields.index
  cases hl : alookup ap.index_ n with
  | some i => simp
  | none =>
    by_cases hm : m = n
    · subst hm; simp [alookup_aupdate_self, hl]
    · simp [alookup_aupdate_ne _ _ hm]

lemma specApValue_append_apIndex (hist : List IdxOp) (n m : String) :
    specApValue (hist ++ [.apIndex m]) n = specApValue hist n := by
  simp [specApValue, apSel, List.filterMap_append]

lemma specApValue_append_prIndex (hist : List IdxOp) (n : String) :
    specApValue (hist ++ [.prIndex]) n = specApValue hist n := by
  simp [specApValue, apSel, List.filterMap_append]

lemma specApValue_append_prSet (hist : List IdxOp) (n : String) (i : Int) :
    specApValue (hist ++ [.prSet i]) n = specApValue hist n := by
  simp [specApValue, apSel, List.filterMap_append]

lemma specApValue_append_apSet_self (hist : List IdxOp) (n : String) (i : Int) :
    specApValue (hist ++ [.apSet n i]) n = i := by
  simp [specApValue, apSel, List.filterMap_append, List.getLast?_concat]

lemma specApValue_append_apSet_ne (hist : List IdxOp) {n m : String} (i : Int)
    (hnm : n ≠ m) : specApValue (hist ++ [.apSet m i]) n = specApValue hist n := by
  simp [specApValue, apSel, List.filterMap_append, Ne.symm hnm]

lemma specPrValue_append_apIndex (hist : List IdxOp) (m : String) :
    specPrValue (hist ++ [.apIndex m]) = specPrValue hist := by
  simp [specPrValue, prSel, List.filterMap_append]

lemma specPrValue_append_apSet (hist : List IdxOp) (m : String) (i : Int) :
    specPrValue (hist ++ [.apSet m i]) = specPrValue hist := by
  simp [specPrValue, prSel, List.filterMap_append]

lemma specPrValue_append_prIndex (hist : List IdxOp) :
    specPrValue (hist ++ [.prIndex]) = specPrValue hist := by
  simp [specPrValue, prSel, List.filterMap_append]

lemma specPrValue_append_prSet (hist : List IdxOp) (i : Int) :
    specPrValue (hist ++ [.prSet i]) = i := by
  simp [specPrValue, prSel, List.filterMap_append, List.getLast?_concat]

/-- The implementation run agrees with the specification run from any state
satisfying the invariant for its history. -/
lemma runOps_eq_specRun : ∀ (ops : List IdxOp) (s : APFields × ProbeFields)
    (hist : List IdxOp), IdxInv s hist → runOps ops s = specRun hist ops := by
  intro ops
  induction ops with
  | nil => intro s hist _; rfl
  | cons op rest ih =>
    intro s hist hinv
    obtain ⟨ap, pr⟩ := s
    obtain ⟨hap, hpr⟩ := hinv
    cases op with
    | apIndex n =>
      show (ap.index n).1 :: runOps rest ((ap.index n).2, pr) =
        specApValue hist n :: specRun (hist ++ [.apIndex n]) rest
      have hout : (ap.index n).1 = specApValue hist n := by
        rw [APFields.index_fst, hap n]
      have hrest := ih ((ap.index n).2, pr) (hist ++ [.apIndex n])
        ⟨fun m => by
          rw [APFields.index_snd_lookup, hap m, specApValue_append_apIndex],
        by rw [specPrValue_append_apIndex]; exact hpr⟩
      rw [hout, hrest]
    | apSet n i =>
      show runOps rest (ap.set_index n i, pr) = specRun (hist ++ [.apSet n i]) rest
      refine ih _ _ ⟨fun m => ?_, ?_⟩
      · by_cases hm : m = n
        · subst hm
          simp [APFields.set_index, alookup_aupdate_self,
            specApValue_append_apSet_self]
        · simp [APFields.set_index, alookup_aupdate_ne _ _ hm,
            specApValue_append_apSet_ne _ _ hm, hap m]
      · rw [specPrValue_append_apSet]; exact hpr
    | prIndex =>
      show pr.index :: runOps rest (ap, pr) =
        specPrValue hist :: specRun (hist ++ [.prIndex]) rest
      have hrest := ih (ap, pr) (hist ++ [.prIndex])
        ⟨fun m => by rw [specApValue_append_prIndex]; exact hap m,
        by rw [specPrValue_append_prIndex]; exact hpr⟩
      rw [show pr.index = specPrValue hist from hpr, hrest]
    | prSet i =>
      show runOps rest (ap, pr.set_index i) = specRun (hist ++ [.prSet i]) rest
      refine ih _ _ ⟨fun m => by rw [specApValue_append_prSet]; exact hap m, ?_⟩
      simp [ProbeFields.set_index, specPrValue_append_prSet]

/-!
## Claim theorems
-/

/-- C1: for every `AssignMapStatement` (resp. `AssignVarStatement`) with
`compound = true`, destroying the statement does not destroy the node held
in its `map` (resp. `var`) field — its trace is exactly the `expr`
operand's trace followed by the statement itself — and destroying the
`expr` operand destroys the shared map/variable node exactly once; with
`compound = false`, destroying the statement destroys both the map/var
node and the expr node exactly once each. -/
theorem assign_statement_destroys_shared_node_once
    (h : Heap) (f : Nat) (s m e : Addr) (cp : Bool) (nd : HNode)
    (hs : h s = some nd)
    (hv : nd.val = .assignMap (some m) (some e) cp ∨
          nd.val = .assignVar (some m) (some e) cp) :
    (cp = true → ∀ tr te, destroyAddr h (f + 1) s = some tr →
        destroyAddr h f e = some te →
        tr = te ++ [s] ∧
        (ReachVia destructorPlan h e m → te.Nodup → List.count m te = 1)) ∧
    (cp = false → ∀ tr, destroyAddr h (f + 1) s = some tr → tr.Nodup →
        List.count m tr = 1 ∧ List.count e tr = 1) := by
  constructor
  · rintro rfl tr te htr hte
    have hplan : destructorPlan nd.val = some [some e] := by
      rcases hv with hv | hv <;> rw [hv] <;> rfl
    obtain ⟨ps, ts, hplan', hts, rfl⟩ := destroy_succ_inv hs htr
    rw [hplan] at hplan'
    obtain rfl : [some e] = ps := Option.some.inj hplan'
    obtain ⟨tb, trest, hwb, hwrest, rfl⟩ := walkPtrsF_cons_some_inv hts
    have hwb' : destroyAddr h f e = some tb := hwb
    rw [hte] at hwb'
    obtain rfl : te = tb := Option.some.inj hwb'
    obtain rfl : trest = [] := by
      simp only [walkPtrsF] at hwrest
      exact (Option.some.inj hwrest).symm
    refine ⟨by simp, fun hr hnd => ?_⟩
    exact List.count_eq_one_of_mem hnd (walk_reach_mem hr hte)
  · rintro rfl tr htr hnodup
    have hplan : destructorPlan nd.val = some [some m, some e] := by
      rcases hv with hv | hv <;> rw [hv] <;> rfl
    obtain ⟨ps, ts, hplan', hts, rfl⟩ := destroy_succ_inv hs htr
    rw [hplan] at hplan'
    obtain rfl : [some m, some e] = ps := Option.some.inj hplan'
    obtain ⟨tm, hwm, hsubm⟩ := walkPtrsF_child (c := m) hts (by simp)
    obtain ⟨te', hwe, hsube⟩ := walkPtrsF_child (c := e) hts (by simp)
    have hwm' : destroyAddr h f m = some tm := hwm
    have hwe' : destroyAddr h f e = some te' := hwe
    have hm : m ∈ ts ++ [s] :=
      List.mem_append_left _ (hsubm m (walk_self_mem hwm'))
    have he : e ∈ ts ++ [s] :=
      List.mem_append_left _ (hsube e (walk_self_mem hwe'))
    exact ⟨List.count_eq_one_of_mem hnodup hm,
      List.count_eq_one_of_mem hnodup he⟩

/-- Witness for C1 at the `@x += 1` tree `hAssignCompound` (the shared
`Map` node at address 1 is freed exactly once, by the expression subtree)
and at the plain assignment tree `hAssignSimple`. -/
theorem assign_statement_destroys_shared_node_once_witness :
    List.count 1 [1, 3, 2] = 1 ∧ ([1, 3, 2, 0] : List Addr) = [1, 3, 2] ++ [0] ∧
    List.count 1 [1, 2, 0] = 1 ∧ List.count 2 [1, 2, 0] = 1 := by
  have hc := assign_statement_destroys_shared_node_once hAssignCompound 3 0 1 2
      true { val := .assignMap (some 1) (some 2) true } rfl (Or.inl rfl)
  have hreach : ReachVia destructorPlan hAssignCompound 2 1 :=
    ReachVia.step
      (show hAssignCompound 2 = some ⟨0, {}, .binop (some 1) 0 (some 3)⟩
        from rfl) rfl (by simp) (ReachVia.refl 1)
  have h1 := hc.1 rfl [1, 3, 2, 0] [1, 3, 2] (by decide) (by decide)
  have h2 := assign_statement_destroys_shared_node_once hAssignSimple 2 0 1 2
      false { val := .assignVar (some 1) (some 2) false } rfl (Or.inr rfl)
  have h3 := h2.2 rfl [1, 2, 0] (by decide) (by decide)
  exact ⟨h1.2 hreach (by decide), h1.1, h3.1, h3.2⟩

/-- C2 counterexample: the claim asserts destruction is a well-defined
no-op for "a Tuple ... whose child-list pointer is null", but
`Tuple::~Tuple` iterates `*elems` without a null check: destroying the
`Tuple` node at address 0 of `hTupleNull` (whose `elems` is null) is
undefined behaviour at every fuel, not a no-op. -/
theorem tuple_null_list_destroy_undefined :
    hTupleNull 0 = some { loc := 0, meta := {}, val := .tuple none } ∧
    destroyAddr hTupleNull 1 0 = none ∧ destroyAddr hTupleNull 9 0 = none := by
  exact ⟨rfl, by decide, by decide⟩

/-- C2 (amended): destroying a composite node destroys every child its
destructor owns exactly once (ownership-reachability via the destructor
plans excludes `Unroll`'s leaked `expr` and a compound assignment's
aliased `map`/`var`); null child pointers contribute nothing; the kinds
whose destructors null-check their optional children (`Call`, `Map`,
`Unroll`, `If`, `Probe`, `Program`) destroy a node with absent children as
a pure no-op; `Tuple` and `While` dereference their child-list pointer
without a null check, so destruction of a null-list node is undefined. -/
theorem destroy_children_exactly_once_and_null_checks :
    (∀ (h : Heap) (f : Nat) (a b : Addr) (tr : List Addr),
        destroyAddr h f a = some tr → tr.Nodup →
        ReachVia destructorPlan h a b → List.count b tr = 1) ∧
    (∀ (w : Addr → Option (List Addr)) (ps : List (Option Addr)),
        walkPtrsF w ps = walkPtrsF w (ps.reduceOption.map some)) ∧
    (∀ (h : Heap) (f : Nat) (a : Addr) (nd : HNode), h a = some nd →
        (∀ fn, nd.val = .call fn none → destroyAddr h (f + 1) a = some [a]) ∧
        (∀ ident sk, nd.val = .map ident none sk →
            destroyAddr h (f + 1) a = some [a]) ∧
        (∀ v e, nd.val = .unroll v e none →
            destroyAddr h (f + 1) a = some [a]) ∧
        (nd.val = .ifStmt none none none →
            destroyAddr h (f + 1) a = some [a]) ∧
        (∀ ne nt ix, nd.val = .probe none none none ne nt ix →
            destroyAddr h (f + 1) a = some [a]) ∧
        (∀ cd, nd.val = .program cd none →
            destroyAddr h (f + 1) a = some [a])) ∧
    (∀ (h : Heap) (f : Nat) (a : Addr) (nd : HNode), h a = some nd →
        (nd.val = .tuple none → destroyAddr h f a = none) ∧
        (∀ c, nd.val = .whileStmt c none → destroyAddr h f a = none)) := by
  refine ⟨?_, ?_, ?_, ?_⟩
  · intro h f a b tr htr hnd hr
    exact List.count_eq_one_of_mem hnd (walk_reach_mem hr htr)
  · intro w ps
    exact walkPtrsF_skip_none ps
  · intro h f a nd hs
    refine ⟨fun fn hv => ?_, fun ident sk hv => ?_, fun v e hv => ?_,
      fun hv => ?_, fun ne nt ix hv => ?_, fun cd hv => ?_⟩
    · have hplan : destructorPlan nd.val = some [] := by rw [hv]; rfl
      simpa using destroy_eq hs hplan rfl
    · have hplan : destructorPlan nd.val = some [] := by rw [hv]; rfl
      simpa using destroy_eq hs hplan rfl
    · have hplan : destructorPlan nd.val = some [] := by rw [hv]; rfl
      simpa using destroy_eq hs hplan rfl
    · have hplan : destructorPlan nd.val = some [none] := by rw [hv]; rfl
      simpa using destroy_eq hs hplan rfl
    · have hplan : destructorPlan nd.val = some [none] := by rw [hv]; rfl
      simpa using destroy_eq hs hplan rfl
    · have hplan : destructorPlan nd.val = some [] := by rw [hv]; rfl
      simpa using destroy_eq hs hplan rfl
  · intro h f a nd hs
    exact ⟨fun hv => destroy_none_of_plan_none hs (by rw [hv]; rfl) f,
      fun c hv => destroy_none_of_plan_none hs (by rw [hv]; rfl) f⟩

/-- Witness for C2 (amended) at the `If` tree `hIfTree` (deep child 3
destroyed exactly once), the null-children `Unroll` at `hUnrollLeak`
(no-op beyond the node itself), and the null-list `Tuple` at
`hTupleNull` (undefined). -/
theorem destroy_children_exactly_once_and_null_checks_witness :
    List.count 3 [1, 3, 2, 0] = 1 ∧ destroyAddr hUnrollLeak 1 0 = some [0] ∧
    destroyAddr hTupleNull 7 0 = none := by
  obtain ⟨honce, hskip, hnoop, hub⟩ := destroy_children_exactly_once_and_null_checks
  refine ⟨honce hIfTree 4 0 3 [1, 3, 2, 0] (by decide) (by decide) ?_, ?_, ?_⟩
  · exact ReachVia.step (c := 2)
      (show hIfTree 0 = some ⟨0, {}, .ifStmt (some 1) (some [2]) none⟩
        from rfl) rfl (by simp [optChildren])
      (ReachVia.step (c := 3)
        (show hIfTree 2 = some ⟨0, {}, .exprStatement (some 3)⟩ from rfl)
        rfl (by simp) (ReachVia.refl 3))
  · exact (hnoop hUnrollLeak 0 0 { val := .unroll 0 (some 1) none } rfl).2.2.1
      0 (some 1) rfl
  · exact (hub hTupleNull 7 0 { val := .tuple none } rfl).1 rfl

/-- C3 (code_bug, evaluated at the failing input): `Ternary` declares no
copy constructor, so `Ternary::leafcopy` copies the child pointers
`cond`/`left`/`right` instead of leaving them empty as `DEFINE_LEAFCOPY`'s
own doc comment requires; the assignment statements' copy constructors
leave `compound` uninitialized, so the copied flag depends on the
indeterminate value rather than on the original.  A correctly-behaving
kind (`Binop`) is shown for contrast. -/
theorem leafcopy_ternary_keeps_children_eval :
    (leafcopy true { loc := 7, val := .ternary (some 1) (some 2) (some 3) }).val
        = .ternary (some 1) (some 2) (some 3) ∧
    (leafcopy true { val := .assignMap (some 4) (some 5) false }).val
        = .assignMap none none true ∧
    (leafcopy false { val := .assignMap (some 4) (some 5) false }).val
        = .assignMap none none false ∧
    (leafcopy true { val := .assignVar (some 4) (some 5) false }).val
        = .assignVar none none true ∧
    (leafcopy true { loc := 7, val := .binop (some 1) 9 (some 2) }).val
        = .binop none 9 none ∧
    (leafcopy true { loc := 7, val := .binop (some 1) 9 (some 2) }).loc = 7 := by
  exact ⟨rfl, rfl, rfl, rfl, rfl, rfl⟩

/-- C4 counterexample: the claim's "destroying an arbitrary tree
deallocates every owned child exactly once" fails on `Unroll`, whose
destructor never deletes its `expr` operand: at `hUnrollLeak` the owned
child at address 1 is deallocated zero times, not once. -/
theorem unroll_expr_never_destroyed :
    hUnrollLeak 0 = some ⟨0, {}, .unroll 0 (some 1) none⟩ ∧
    hUnrollLeak 1 = some ⟨0, {}, .string "payload"⟩ ∧
    destroyAddr hUnrollLeak 3 0 = some [0] ∧ List.count 1 [0] = 0 := by
  exact ⟨rfl, rfl, by decide, by decide⟩

/-- C4 (amended): the non-owning back-references (`map`/`var`, and
`key_for_map`) are never followed, dereferenced or deleted by destruction
or cloning: destruction traces are identical on heaps that differ only in
the `Expression` base data; an address that is not ownership-reachable is
never freed; every node the destructors own is freed exactly once (on a
duplicate-free trace — `Unroll`'s leaked `expr` and a compound
assignment's aliased `map`/`var` slot are not destructor-owned edges); and
`leafcopy` nulls the back-references without dereferencing them. -/
theorem destruction_never_follows_binding_links :
    (∀ h₁ h₂ : Heap, ValAgree h₁ h₂ →
        ∀ (f : Nat) (a : Addr), destroyAddr h₁ f a = destroyAddr h₂ f a) ∧
    (∀ (h : Heap) (f : Nat) (a b : Addr) (tr : List Addr),
        destroyAddr h f a = some tr → ¬ ReachVia destructorPlan h a b →
        b ∉ tr) ∧
    (∀ (h : Heap) (f : Nat) (a b : Addr) (tr : List Addr),
        destroyAddr h f a = some tr → tr.Nodup →
        ReachVia destructorPlan h a b → List.count b tr = 1) ∧
    (∀ (ind : Bool) (nd : HNode),
        (leafcopy ind nd).meta.key_for_map = none ∧
        (leafcopy ind nd).meta.map = none ∧
        (leafcopy ind nd).meta.var = none) := by
  refine ⟨?_, ?_, ?_, ?_⟩
  · intro h₁ h₂ hag f a
    exact walk_frame hag f a
  · intro h f a b tr htr hnr hmem
    exact hnr (walk_mem_reach htr b hmem)
  · intro h f a b tr htr hnd hr
    exact List.count_eq_one_of_mem hnd (walk_reach_mem hr htr)
  · intro ind nd
    exact ⟨rfl, rfl, rfl⟩

/-- Witness for C4 (amended) on the `Binop` trees `hMetaA`/`hMetaB`, which
differ only in the `Expression` base data: same destruction trace, the
binding-link target 9 is never freed, the owned child 2 is freed exactly
once, and `leafcopy` nulls a populated `map` back-reference. -/
theorem destruction_never_follows_binding_links_witness :
    destroyAddr hMetaA 3 0 = destroyAddr hMetaB 3 0 ∧
    (9 : Addr) ∉ ([1, 2, 0] : List Addr) ∧
    List.count 2 [1, 2, 0] = 1 ∧
    (leafcopy true ⟨0, { map := some 9 }, .variable "v"⟩).meta.map
      = none := by
  obtain ⟨hframe, hnofree, honce, hclone⟩ :=
    destruction_never_follows_binding_links
  have hag : ValAgree hMetaA hMetaB := fun a => by
    match a with
    | 0 => rfl
    | 1 => rfl
    | 2 => rfl
    | _ + 3 => rfl
  have hnr : ¬ ReachVia destructorPlan hMetaA 0 9 := by
    intro hr
    have h9 := walk_reach_mem hr
      (show walk destructorPlan false hMetaA 3 0 = some [1, 2, 0] by decide)
    simp at h9
  refine ⟨hframe hMetaA hMetaB hag 3 0,
    hnofree hMetaA 3 0 9 [1, 2, 0] (by decide) hnr,
    honce hMetaA 3 0 2 [1, 2, 0] (by decide) (by decide) ?_,
    (hclone true _).2.1⟩
  exact ReachVia.step (c := 2)
    (show hMetaA 0 = some ⟨0, {}, .binop (some 1) 0 (some 2)⟩ from rfl)
    rfl (by simp) (ReachVia.refl 2)

/-- C9: every `Expression` carries the non-owning `key_for_map` pointer
alongside `map` and `var`; the in-class initializers (`ast.h:52-57`) make
all three null and the three classification flags false on construction;
and no destructor ever reads or deletes `key_for_map`: rewriting every
node's `key_for_map` arbitrarily leaves the destruction trace unchanged,
and every freed address is ownership-reachable through the destructor
plans, which never consult the `Expression` base data. -/
theorem key_for_map_inert :
    ({} : ExprMeta).key_for_map = none ∧ ({} : ExprMeta).map = none ∧
    ({} : ExprMeta).var = none ∧ ({} : ExprMeta).is_literal = false ∧
    ({} : ExprMeta).is_variable = false ∧ ({} : ExprMeta).is_map = false ∧
    (∀ (h : Heap) (g : Addr → Option Addr) (f : Nat) (a : Addr),
        destroyAddr
          (fun x => (h x).map fun nd =>
            { nd with meta := { nd.meta with key_for_map := g x } }) f a =
        destroyAddr h f a) ∧
    (∀ (h : Heap) (f : Nat) (a : Addr) (tr : List Addr) (b : Addr),
        destroyAddr h f a = some tr → b ∈ tr →
        ReachVia destructorPlan h a b) := by
  refine ⟨rfl, rfl, rfl, rfl, rfl, rfl, ?_, ?_⟩
  · intro h g f a
    refine walk_frame (fun x => ?_) f a
    cases h x <;> rfl
  · intro h f a tr b htr hb
    exact walk_mem_reach htr b hb

/-- Witness for C9 at the `Unop` tree `hKfm`, whose root's `key_for_map`
points at the node-free address 5: the freed address 1 is
ownership-reachable. -/
theorem key_for_map_inert_witness : ReachVia destructorPlan hKfm 0 1 := by
  exact key_for_map_inert.2.2.2.2.2.2.2 hKfm 3 0 [1, 0] 1 (by decide)
    (by decide)

/-- C5: `AttachPoint::index` caching: two calls with no intervening
`set_index` return the same value; `set_index(n, k)` followed by
`index(n)` returns `k`; operations on one key leave another key's result
unchanged. -/
theorem attachpoint_index_cached_set_get_independent :
    (∀ (ap : APFields) (n : String),
        ((ap.index n).2.index n).1 = (ap.index n).1) ∧
    (∀ (ap : APFields) (n : String) (k : Int),
        ((ap.set_index n k).index n).1 = k) ∧
    (∀ (ap : APFields) (n₁ n₂ : String) (k : Int), n₁ ≠ n₂ →
        ((ap.index n₁).2.index n₂).1 = (ap.index n₂).1 ∧
        ((ap.set_index n₁ k).index n₂).1 = (ap.index n₂).1) := by
  refine ⟨?_, ?_, ?_⟩
  · intro ap n
    rw [APFields.index_fst, APFields.index_fst, APFields.index_snd_lookup]
  · intro ap n k
    rw [APFields.index_fst]
    simp [APFields.set_index, alookup_aupdate_self]
  · intro ap n₁ n₂ k hne
    constructor
    · rw [APFields.index_fst, APFields.index_fst, APFields.index_snd_lookup]
    · rw [APFields.index_fst, APFields.index_fst]
      simp [APFields.set_index, alookup_aupdate_ne _ _ (Ne.symm hne)]

/-- Witness for C5: `set_index("a", 5)` then `index("a")` gives 5, and an
`index("a")` call does not disturb `index("b")`. -/
theorem attachpoint_index_cached_set_get_independent_witness :
    ((({} : APFields).set_index "a" 5).index "a").1 = 5 ∧
    ((({} : APFields).index "a").2.index "b").1 =
      (({} : APFields).index "b").1 := by
  have h := attachpoint_index_cached_set_get_independent
  exact ⟨h.2.1 {} "a" 5, (h.2.2 {} "a" "b" 0 (by decide)).1⟩

/-- C6: `index(name)` called with a key that has never been registered
succeeds — there is no unknown-key failure mode — lazily allocating and
returning index 0 and caching the binding on first use. -/
theorem attachpoint_index_unknown_key_lazy_zero (ap : APFields) (n : String)
    (hnew : alookup ap.index_ n = none) :
    (ap.index n).1 = 0 ∧ alookup (ap.index n).2.index_ n = some 0 := by
  constructor
  · rw [APFields.index_fst, hnew]
    rfl
  · unfold APFields.index
    rw [hnew]
    simp [alookup_aupdate_self]

/-- Witness for C6 at a fresh attach point and the key `"never"`. -/
theorem attachpoint_index_unknown_key_lazy_zero_witness :
    (({} : APFields).index "never").1 = 0 ∧
    alookup (({} : APFields).index "never").2.index_ "never" = some 0 := by
  exact attachpoint_index_unknown_key_lazy_zero {} "never" rfl

/-- C7: index assignment is deterministic: running any fixed sequence of
`AttachPoint::index`/`set_index` and `Probe::index`/`set_index` operations
from the freshly constructed state produces exactly the outputs of the
pure specification function of the operation list (each `index` returns
the last explicitly set value for its key/probe, or the lazily allocated
initial 0) — two runs of the same sequence therefore produce identical
indices, with no hidden or unordered state; and a key for which no
`set_index` occurs keeps the value 0 throughout — an assigned counter is
never spontaneously changed or reused. -/
theorem index_assignment_deterministic :
    (∀ ops : List IdxOp, runOps ops ({}, {}) = specRun [] ops) ∧
    (∀ (hist : List IdxOp) (n : String),
        (∀ i : Int, IdxOp.apSet n i ∉ hist) → specApValue hist n = 0) := by
  constructor
  · intro ops
    exact runOps_eq_specRun ops ({}, {}) [] ⟨fun n => rfl, rfl⟩
  · intro hist n hno
    exact specApValue_of_no_set n hist hno

/-- Witness for C7 on a concrete operation sequence. -/
theorem index_assignment_deterministic_witness :
    runOps [IdxOp.apIndex "a", IdxOp.apSet "a" 5, IdxOp.apIndex "a",
        IdxOp.prIndex] ({}, {}) =
      specRun [] [IdxOp.apIndex "a", IdxOp.apSet "a" 5, IdxOp.apIndex "a",
        IdxOp.prIndex] ∧
    runOps [IdxOp.apIndex "a", IdxOp.apSet "a" 5, IdxOp.apIndex "a",
        IdxOp.prIndex] ({}, {}) = [0, 5, 0] ∧
    specApValue [IdxOp.apIndex "b", IdxOp.prSet 3] "b" = 0 := by
  have h := index_assignment_deterministic
  refine ⟨h.1 _, by decide, h.2 [IdxOp.apIndex "b", IdxOp.prSet 3] "b" ?_⟩
  intro i hi
  simp at hi

/-- C10: a freshly constructed `Probe` (per-probe counter initializer
`int index_ = 0`, `ast.h:647`) has `index() = 0`; the counter changes only
through `set_index`. -/
theorem fresh_probe_index_zero :
    ({} : ProbeFields).index = 0 ∧ ({} : ProbeFields).index_ = 0 ∧
    (∀ i : Int, (({} : ProbeFields).set_index i).index = i) := by
  exact ⟨rfl, rfl, fun i => rfl⟩

/-- C8: accepting a visitor visits every node of a tree exactly once, in a
fixed deterministic pre-order determined by the tree shape: the node comes
first, a `Binop` visits its left operand before its right, call/tuple
operands are visited left to right, `If`/`While`/`Ternary` visit the
condition before the branch/body statements, and a `Probe` visits its
attach points and predicate before its body. -/
theorem visitor_preorder_deterministic :
    (∀ (h : Heap) (f : Nat) (a b : Addr) (vs : List Addr),
        visitAddr h f a = some vs → vs.Nodup →
        ReachVia visitPlan h a b → List.count b vs = 1) ∧
    (∀ (h : Heap) (f : Nat) (a l r : Addr) (op : Int) (nd : HNode)
        (tl tr : List Addr), h a = some nd →
        nd.val = .binop (some l) op (some r) →
        visitAddr h f l = some tl → visitAddr h f r = some tr →
        visitAddr h (f + 1) a = some (a :: (tl ++ tr))) ∧
    (∀ (h : Heap) (f : Nat) (a : Addr) (fn : String) (args : List Addr)
        (nd : HNode) (ta : List Addr), h a = some nd →
        nd.val = .call fn (some args) → visitSeq h f args = some ta →
        visitAddr h (f + 1) a = some (a :: ta)) ∧
    (∀ (h : Heap) (f : Nat) (a : Addr) (elems : List Addr) (nd : HNode)
        (ta : List Addr), h a = some nd →
        nd.val = .tuple (some elems) → visitSeq h f elems = some ta →
        visitAddr h (f + 1) a = some (a :: ta)) ∧
    (∀ (h : Heap) (f : Nat) (a c : Addr) (ss es : List Addr) (nd : HNode)
        (tc ts te : List Addr), h a = some nd →
        nd.val = .ifStmt (some c) (some ss) (some es) →
        visitAddr h f c = some tc → visitSeq h f ss = some ts →
        visitSeq h f es = some te →
        visitAddr h (f + 1) a = some (a :: (tc ++ ts ++ te))) ∧
    (∀ (h : Heap) (f : Nat) (a c : Addr) (ss : List Addr) (nd : HNode)
        (tc ts : List Addr), h a = some nd →
        nd.val = .whileStmt (some c) (some ss) →
        visitAddr h f c = some tc → visitSeq h f ss = some ts →
        visitAddr h (f + 1) a = some (a :: (tc ++ ts))) ∧
    (∀ (h : Heap) (f : Nat) (a c l r : Addr) (nd : HNode)
        (tc tl tr : List Addr), h a = some nd →
        nd.val = .ternary (some c) (some l) (some r) →
        visitAddr h f c = some tc → visitAddr h f l = some tl →
        visitAddr h f r = some tr →
        visitAddr h (f + 1) a = some (a :: (tc ++ tl ++ tr))) ∧
    (∀ (h : Heap) (f : Nat) (a p : Addr) (aps ss : List Addr) (nd : HNode)
        (tap tp ts : List Addr) (ne nt : Bool) (ix : Int), h a = some nd →
        nd.val = .probe (some aps) (some p) (some ss) ne nt ix →
        visitSeq h f aps = some tap → visitAddr h f p = some tp →
        visitSeq h f ss = some ts →
        visitAddr h (f + 1) a = some (a :: (tap ++ tp ++ ts))) := by
  refine ⟨?_, ?_, ?_, ?_, ?_, ?_, ?_, ?_⟩
  · intro h f a b vs hvs hnd hr
    exact List.count_eq_one_of_mem hnd (walk_reach_mem hr hvs)
  · intro h f a l r op nd tl tr hs hv htl htr
    have h1 : walkPtrsF (fun b => visitAddr h f b) [some l] = some tl :=
      walkPtrsF_one htl
    have h2 : walkPtrsF (fun b => visitAddr h f b) [some r] = some tr :=
      walkPtrsF_one htr
    exact visit_eq hs (by rw [hv]; rfl) (walkPtrsF_append h1 h2)
  · intro h f a fn args nd ta hs hv hta
    exact visit_eq hs (by rw [hv]; rfl) hta
  · intro h f a elems nd ta hs hv hta
    exact visit_eq hs (by rw [hv]; rfl) hta
  · intro h f a c ss es nd tc ts te hs hv htc hts hte
    have h1 : walkPtrsF (fun b => visitAddr h f b) [some c] = some tc :=
      walkPtrsF_one htc
    exact visit_eq hs (by rw [hv]; rfl)
      (walkPtrsF_append (walkPtrsF_append h1 hts) hte)
  · intro h f a c ss nd tc ts hs hv htc hts
    have h1 : walkPtrsF (fun b => visitAddr h f b) [some c] = some tc :=
      walkPtrsF_one htc
    exact visit_eq hs (by rw [hv]; rfl) (walkPtrsF_append h1 hts)
  · intro h f a c l r nd tc tl tr hs hv htc htl htr
    have h1 : walkPtrsF (fun b => visitAddr h f b) [some c] = some tc :=
      walkPtrsF_one htc
    have h2 : walkPtrsF (fun b => visitAddr h f b) [some l] = some tl :=
      walkPtrsF_one htl
    have h3 : walkPtrsF (fun b => visitAddr h f b) [some r] = some tr :=
      walkPtrsF_one htr
    exact visit_eq hs (by rw [hv]; rfl)
      (walkPtrsF_append (walkPtrsF_append h1 h2) h3)
  · intro h f a p aps ss nd tap tp ts ne nt ix hs hv htap htp hts
    have h1 : walkPtrsF (fun b => visitAddr h f b) [some p] = some tp :=
      walkPtrsF_one htp
    exact visit_eq hs (by rw [hv]; rfl)
      (walkPtrsF_append (walkPtrsF_append htap h1) hts)

/-- Witness for C8 at the probe tree `hProg`: the full pre-order trace,
exactly-once for the deep leaf 10, and the decompositions for the `Binop`
at 5, the `If` at 4 and the `Probe` at 0. -/
theorem visitor_preorder_deterministic_witness :
    visitAddr hProg 6 0 = some [0, 1, 2, 3, 4, 5, 6, 7, 8, 10, 9] ∧
    List.count 10 [0, 1, 2, 3, 4, 5, 6, 7, 8, 10, 9] = 1 ∧
    visitAddr hProg 3 5 = some (5 :: ([6] ++ [7])) ∧
    visitAddr hProg 5 4 = some (4 :: ([5, 6, 7] ++ [8, 10] ++ [9])) ∧
    visitAddr hProg 6 0 = some (0 :: ([1] ++ [2, 3] ++ [4, 5, 6, 7, 8, 10, 9])) := by
  have h := visitor_preorder_deterministic
  refine ⟨by decide, ?_, ?_, ?_, ?_⟩
  · refine h.1 hProg 6 0 10 _ (by decide) (by decide) ?_
    exact ReachVia.step (c := 4)
      (show hProg 0 =
          some ⟨0, {}, .probe (some [1]) (some 2) (some [4]) false false 0⟩
        from rfl)
      rfl (by simp [optChildren])
      (ReachVia.step (c := 8)
        (show hProg 4 = some ⟨0, {}, .ifStmt (some 5) (some [8]) (some [9])⟩
          from rfl)
        rfl (by simp [optChildren])
        (ReachVia.step (c := 10)
          (show hProg 8 = some ⟨0, {}, .exprStatement (some 10)⟩ from rfl)
          rfl (by simp) (ReachVia.refl 10)))
  · exact h.2.1 hProg 2 5 6 7 1 { val := .binop (some 6) 1 (some 7) }
      [6] [7] rfl rfl (by decide) (by decide)
  · exact h.2.2.2.2.1 hProg 4 4 5 [8] [9]
      { val := .ifStmt (some 5) (some [8]) (some [9]) }
      [5, 6, 7] [8, 10] [9] rfl rfl (by decide) (by decide) (by decide)
  · exact h.2.2.2.2.2.2.2 hProg 5 0 2 [1] [4]
      { val := .probe (some [1]) (some 2) (some [4]) false false 0 }
      [1] [2, 3] [4, 5, 6, 7, 8, 10, 9] false false 0 rfl rfl
      (by decide) (by decide) (by decide)

end BpftraceAst
